import Mathlib

/-!
Shallow embedding of the image-scale nodes of `image_scale.py` (ComfyUI_fnodes):
dimension planning (`ImageScalerForSDModels`, `ImageScaleBySpecifiedSide`,
`ComputeImageScaleRatio`), rotation canvas planning (`ImageRotate`), border
trimming (`TrimImageBorders`) and border addition (`AddImageBorder`).

Images are modelled as row-major grids of 8-bit RGB pixels (the numpy
`(h, w, c)` uint8 arrays the nodes operate on); a batch is a list of such
grids.  The external resampling/warp primitives (`common_upscale`,
`cv2.warpAffine`) are treated as opaque collaborators: the embedding covers
the dimension arithmetic, the matrix construction and the pixel-level
operations the repository itself performs.
-/

/-- An RGB pixel with 8-bit channels, as stored in the numpy uint8 arrays. -/
abbrev Pixel := ℕ × ℕ × ℕ

/-- An image as a row-major grid of pixels (the numpy HxWxC array). -/
abbrev Img := List (List Pixel)

/-- Height of an image: number of rows (numpy `shape[0]`). -/
def imgHeight (img : Img) : ℕ := img.length

/-- Width of an image: length of the first row (numpy `shape[1]`). -/
def imgWidth (img : Img) : ℕ := (img.headD []).length

/-- Pixel lookup with a black default outside bounds. -/
def pixelAt (img : Img) (i j : ℕ) : Pixel := (img.getD i []).getD j (0, 0, 0)

/-- A well-formed (rectangular) image: every row has the same length. -/
def Rect (img : Img) : Prop := ∀ row ∈ img, row.length = imgWidth img

/-- Luminance of a pixel, modelling PIL `convert('L')` (ITU-R 601-2:
`L = (19595 R + 38470 G + 7471 B + 32768) >> 16`). -/
def lum (p : Pixel) : ℕ := (19595 * p.1 + 38470 * p.2.1 + 7471 * p.2.2 + 32768) / 65536

/-- The thresholding closure passed to `gray_image.point` in
`TrimImageBorders.run`: `255 if x > threshold else 0` on the luminance. -/
def binarize (t : ℕ) (p : Pixel) : ℕ := if t < lum p then 255 else 0

/-- Whether row `i` of the binarized image contains a non-zero pixel. -/
def rowNz (t : ℕ) (img : Img) (i : ℕ) : Bool :=
  (img.getD i []).any (fun p => binarize t p != 0)

/-- Whether column `j` of the binarized image contains a non-zero pixel. -/
def colNz (t : ℕ) (img : Img) (j : ℕ) : Bool :=
  img.any (fun row => binarize t (row.getD j (0, 0, 0)) != 0)

/-- First `k < n` satisfying `p`, scanning upwards. -/
def findFirst (p : ℕ → Bool) : ℕ → Option ℕ
  | 0 => none
  | n + 1 =>
    match findFirst p n with
    | some k => some k
    | none => if p n then some n else none

/-- Last `k < n` satisfying `p`. -/
def findLast (p : ℕ → Bool) : ℕ → Option ℕ
  | 0 => none
  | n + 1 => if p n then some n else findLast p n

/-- Tight bounding box `(left, upper, right, lower)` of the non-zero region of
the binarized image, modelling PIL `Image.getbbox` (`right`/`lower` are
exclusive); `none` when the binarized image is entirely zero. -/
def getbbox (t : ℕ) (img : Img) : Option (ℕ × ℕ × ℕ × ℕ) :=
  match findFirst (rowNz t img) (imgHeight img), findLast (rowNz t img) (imgHeight img),
        findFirst (colNz t img) (imgWidth img), findLast (colNz t img) (imgWidth img) with
  | some u, some lo, some le, some ri => some (le, u, ri + 1, lo + 1)
  | _, _, _, _ => none

/-- Crop to the box `(le, u, ri, lo)`: rows `[u, lo)`, columns `[le, ri)`,
modelling PIL `Image.crop` for an in-bounds box. -/
def cropImg (img : Img) (le u ri lo : ℕ) : Img :=
  ((img.drop u).take (lo - u)).map (fun row => (row.drop le).take (ri - le))

/-- Core of `TrimImageBorders.run` on a single image: binarize against the
threshold, crop the original image to the bounding box when one exists,
return the image unchanged otherwise. -/
def trimImage (t : ℕ) (img : Img) : Img :=
  match getbbox t img with
  | some (le, u, ri, lo) => cropImg img le u ri lo
  | none => img

/-- `TrimImageBorders.run`: takes `image[0]` of the batch and returns the
trimmed image with a fresh batch dimension (`unsqueeze(0)`). -/
def trimImageBorders_run (batch : List Img) (t : ℕ) : List Img :=
  [trimImage t (batch.headD [])]

/-- Border width contributed by the ratio: `int(min(h, w) * border_ratio)`
in `AddImageBorder.add_border` (`q` is the `border_ratio` input). -/
def ratioWidth (h w : ℕ) (q : ℚ) : ℕ := (Int.floor ((min h w : ℚ) * q)).toNat

/-- Core of `AddImageBorder.add_border` on a single image: effective border
width `max(border_width, int(min(h,w) * border_ratio))`, new canvas of size
`(h + 2f, w + 2f)` filled with the border color, the original image pasted
centered, and a float mask of the same size that is `0` over the pasted
region and `1` over the border.  The channel order of the numpy fill
`[b, g, r]` is modelled from the spec: `tensor2np`/`np2tensor`
(`utils/image_convert.py`, not under `src/`) convert between the host RGB
tensor layout and the numpy layout, so the border pixels carry the given
`(r, g, b)` color after conversion back. -/
def addBorderImage (img : Img) (bw : ℕ) (q : ℚ) (r g b : ℕ) : Img × List (List ℚ) :=
  let h := imgHeight img
  let w := imgWidth img
  let f := max bw (ratioWidth h w q)
  let nh := h + 2 * f
  let nw := w + 2 * f
  let bordered := (List.range nh).map (fun i =>
    (List.range nw).map (fun j =>
      if f ≤ i ∧ i < f + h ∧ f ≤ j ∧ j < f + w then pixelAt img (i - f) (j - f)
      else (r, g, b)))
  let mask := (List.range nh).map (fun i =>
    (List.range nw).map (fun j =>
      if f ≤ i ∧ i < f + h ∧ f ≤ j ∧ j < f + w then (0 : ℚ) else 1))
  (bordered, mask)

/-- `AddImageBorder.add_border`: takes `image[0]` of the batch and returns the
bordered image and mask, each with a fresh batch dimension. -/
def addImageBorder_run (batch : List Img) (bw : ℕ) (q : ℚ) (r g b : ℕ) :
    List Img × List (List (List ℚ)) :=
  let res := addBorderImage (batch.headD []) bw q r g b
  ([res.1], [res.2])

/-- Python `round`: round half to even (banker's rounding), as applied by
`round(...)` to the float dimension products in the scaling nodes. -/
def roundHE {α : Type} [LinearOrderedField α] [FloorRing α] (x : α) : ℤ :=
  if Int.fract x < 1 / 2 then Int.floor x
  else if 1 / 2 < Int.fract x then Int.floor x + 1
  else if 2 ∣ Int.floor x then Int.floor x else Int.floor x + 1

/-- Modelled from the spec: `make_even` (`utils/utils.py`, not under `src/`),
"rounded down to the nearest even integer". -/
def make_even (n : ℤ) : ℤ := if 2 ∣ n then n else n - 1

/-- Dimension computation of `ImageScaleBySpecifiedSide.execute`: reference
side is the shorter or longer side, `scale_by = reference / size`, each output
dimension is `make_even(round(dim / scale_by))`.  `none` models the
`ZeroDivisionError` raised when `size` (or the reference side) is zero. -/
def scaleBySide_execute (w h size : ℕ) (shorter : Bool) : Option (ℤ × ℤ) :=
  let ref : ℕ := if shorter then min w h else max w h
  if size = 0 ∨ ref = 0 then none
  else
    let scale_by : ℚ := (ref : ℚ) / (size : ℚ)
    some (make_even (roundHE ((w : ℚ) / scale_by)),
          make_even (roundHE ((h : ℚ) / scale_by)))

/-- Dimension computation of `ComputeImageScaleRatio.execute`:
`rr = target_max_size / max(w, h)`, output dimensions
`make_even(round(dim * rr))`; `none` models the `ZeroDivisionError` on a
zero-sized image. -/
def computeScaleRatio_execute (w h target : ℕ) : Option (ℚ × ℤ × ℤ) :=
  if max w h = 0 then none
  else
    let rr : ℚ := (target : ℚ) / (max w h : ℚ)
    some (rr, make_even (roundHE ((w : ℚ) * rr)), make_even (roundHE ((h : ℚ) * rr)))

/-- The `sd_dimensions` lookup of `ImageScalerForSDModels.execute`:
`{'sd15': (512, 512), 'sd15+': (512, 768), 'sdxl': (1024, 1024),
'sdxl+': (1024, 1280)}.get(sd_model_type, (1024, 1024))`. -/
def sd_dimensions (s : String) : ℕ × ℕ :=
  if s = "sd15" then (512, 512)
  else if s = "sd15+" then (512, 768)
  else if s = "sdxl" then (1024, 1024)
  else if s = "sdxl+" then (1024, 1280)
  else (1024, 1024)

/-- The preset table as the four-entry association list the spec describes. -/
def specTable : List (String × (ℕ × ℕ)) :=
  [("sd15", (512, 512)), ("sd15+", (512, 768)), ("sdxl", (1024, 1024)), ("sdxl+", (1024, 1280))]

/-- Dimension computation of `ImageScalerForSDModels.execute`:
`scale_by = sqrt(total_pixels / (w * h))`, output `round(dim * scale_by)`
(no parity adjustment); `none` models the `ZeroDivisionError` on a
zero-sized image. -/
noncomputable def sdScaler_execute (w h : ℕ) (m : String) : Option (ℤ × ℤ) :=
  let tw := (sd_dimensions m).1
  let th := (sd_dimensions m).2
  if w * h = 0 then none
  else
    let scale_by : ℝ := Real.sqrt (((tw * th : ℕ) : ℝ) / ((w * h : ℕ) : ℝ))
    some (roundHE ((w : ℝ) * scale_by), roundHE ((h : ℝ) * scale_by))

/-! ### Rotation -/

/-- A 2×3 affine matrix as produced by `cv2.getRotationMatrix2D`. -/
structure AffineMat where
  m00 : ℝ
  m01 : ℝ
  m02 : ℝ
  m10 : ℝ
  m11 : ℝ
  m12 : ℝ

/-- `cv2.getRotationMatrix2D(center, angle, 1.0)`: rotation by `angle` degrees
about `(cx, cy)` with unit scale. -/
noncomputable def getRotationMatrix2D (cx cy angle : ℝ) : AffineMat :=
  let a := Real.cos (angle * Real.pi / 180)
  let b := Real.sin (angle * Real.pi / 180)
  ⟨a, b, (1 - a) * cx - b * cy, -b, a, b * cx + (1 - a) * cy⟩

/-- Application of the affine map to a point. -/
def affineApply (M : AffineMat) (x y : ℝ) : ℝ × ℝ :=
  (M.m00 * x + M.m01 * y + M.m02, M.m10 * x + M.m11 * y + M.m12)

/-- The OpenCV interpolation flag `cv2.INTER_CUBIC` passed to `warpAffine`. -/
def INTER_CUBIC : ℕ := 2

/-- The geometry planning of `ImageRotate.run`: the rotation matrix about the
image center and the output canvas size.  With `expand`, the canvas becomes
`(int(h|sin| + w|cos|), int(h|cos| + w|sin|))` and the translation column is
shifted so the content is centered; otherwise the canvas keeps the input
size. -/
noncomputable def imageRotate_plan (w h : ℕ) (angle : ℝ) (expand : Bool) :
    AffineMat × ℕ × ℕ :=
  let cx := (w : ℝ) / 2
  let cy := (h : ℝ) / 2
  let M := getRotationMatrix2D cx cy angle
  if expand then
    let absc := |M.m00|
    let abss := |M.m01|
    let nw := (Int.floor ((h : ℝ) * abss + (w : ℝ) * absc)).toNat
    let nh := (Int.floor ((h : ℝ) * absc + (w : ℝ) * abss)).toNat
    (⟨M.m00, M.m01, M.m02 + ((nw : ℝ) / 2 - cx), M.m10, M.m11,
      M.m12 + ((nh : ℝ) / 2 - cy)⟩, nw, nh)
  else
    (M, w, h)

/-- `ImageRotate.run`: takes `image[0]` of the batch, plans the rotation, and
invokes the external warp (`cv2.warpAffine`, abstracted as `warp`) with cubic
interpolation, returning a single-image batch. -/
noncomputable def imageRotate_run (warp : Img → AffineMat → ℕ × ℕ → ℕ → Img)
    (batch : List Img) (angle : ℝ) (expand : Bool) : List Img :=
  let img := batch.headD []
  let p := imageRotate_plan (imgWidth img) (imgHeight img) angle expand
  [warp img p.1 p.2 INTER_CUBIC]

/-- Value of the mask produced by `addBorderImage` at a position. -/
def maskAt (m : List (List ℚ)) (i j : ℕ) : ℚ := (m.getD i []).getD j 0

instance rectDecidable (img : Img) : Decidable (Rect img) :=
  inferInstanceAs (Decidable (∀ row ∈ img, row.length = imgWidth img))

/-- A 3×3 test image: black everywhere except a white center pixel. -/
def imgT : Img :=
  [[(0, 0, 0), (0, 0, 0), (0, 0, 0)],
   [(0, 0, 0), (255, 255, 255), (0, 0, 0)],
   [(0, 0, 0), (0, 0, 0), (0, 0, 0)]]

/-! ### Helper lemmas about rounding -/

theorem roundHE_intCast {α : Type} [LinearOrderedField α] [FloorRing α] (n : ℤ) :
    roundHE ((n : α)) = n := by
  norm_num [roundHE, Int.fract_intCast, Int.floor_intCast]

theorem roundHE_eq_of_eq_int {α : Type} [LinearOrderedField α] [FloorRing α]
    {x : α} {n : ℤ} (h : x = (n : α)) : roundHE x = n := by
  rw [h, roundHE_intCast]

theorem roundHE_eq_floor_of_lt {α : Type} [LinearOrderedField α] [FloorRing α]
    {x : α} (h : Int.fract x < 1 / 2) : roundHE x = Int.floor x := by
  unfold roundHE
  split_ifs <;> first | rfl | linarith

theorem roundHE_eq_floor_add_one_of_gt {α : Type} [LinearOrderedField α] [FloorRing α]
    {x : α} (h : 1 / 2 < Int.fract x) : roundHE x = Int.floor x + 1 := by
  unfold roundHE
  split_ifs <;> first | rfl | linarith

/-- `roundHE` of a value in `[n, n + 1/2)` is `n`. -/
theorem roundHE_eq_of_between_lo {α : Type} [LinearOrderedField α] [FloorRing α]
    {x : α} {n : ℤ} (h1 : (n : α) ≤ x) (h2 : x < (n : α) + 1 / 2) : roundHE x = n := by
  have hf : Int.floor x = n := by
    rw [Int.floor_eq_iff]
    exact ⟨h1, by linarith⟩
  have hfr : Int.fract x < 1 / 2 := by
    rw [← Int.self_sub_floor, hf]
    linarith
  rw [roundHE_eq_floor_of_lt hfr, hf]

/-- `roundHE` of a value in `(n + 1/2, n + 1)` is `n + 1`. -/
theorem roundHE_eq_of_between_hi {α : Type} [LinearOrderedField α] [FloorRing α]
    {x : α} {n : ℤ} (h1 : (n : α) + 1 / 2 < x) (h2 : x < (n : α) + 1) : roundHE x = n + 1 := by
  have hf : Int.floor x = n := by
    rw [Int.floor_eq_iff]
    exact ⟨by linarith, by linarith⟩
  have hfr : 1 / 2 < Int.fract x := by
    rw [← Int.self_sub_floor, hf]
    linarith
  rw [roundHE_eq_floor_add_one_of_gt hfr, hf]

theorem roundHE_nonneg {α : Type} [LinearOrderedField α] [FloorRing α]
    {x : α} (h : 0 ≤ x) : 0 ≤ roundHE x := by
  have hf : (0 : ℤ) ≤ Int.floor x := Int.floor_nonneg.mpr h
  unfold roundHE
  split_ifs <;> omega

theorem make_even_even (n : ℤ) : 2 ∣ make_even n := by
  unfold make_even
  split_ifs with h
  · exact h
  · omega

theorem make_even_nonneg {n : ℤ} (h : 0 ≤ n) : 0 ≤ make_even n := by
  unfold make_even
  split_ifs with h2 <;> omega

theorem make_even_le (n : ℤ) : make_even n ≤ n := by
  unfold make_even
  split_ifs <;> omega

theorem lt_make_even_add_two (n : ℤ) : n < make_even n + 2 := by
  unfold make_even
  split_ifs <;> omega

/-! ### Helper lemmas about `findFirst` and `findLast` -/

theorem findFirst_eq_none {p : ℕ → Bool} {n : ℕ} :
    findFirst p n = none ↔ ∀ k, k < n → p k = false := by
  induction n with
  | zero => simp [findFirst]
  | succ m ih =>
    unfold findFirst
    cases hm : findFirst p m with
    | some k =>
      simp only []
      constructor
      · intro h
        exact absurd h (by simp)
      · intro h
        have : findFirst p m = none := ih.mpr fun k hk => h k (Nat.lt_succ_of_lt hk)
        rw [this] at hm
        exact absurd hm (by simp)
    | none =>
      simp only []
      by_cases hp : p m = true
      · rw [if_pos hp]
        constructor
        · intro h
          exact absurd h (by simp)
        · intro h
          rw [h m (Nat.lt_succ_self m)] at hp
          exact absurd hp (by simp)
      · rw [if_neg hp]
        constructor
        · intro _ k hk
          rcases Nat.lt_succ_iff_lt_or_eq.mp hk with h | h
          · exact ih.mp hm k h
          · rw [h]
            exact Bool.eq_false_iff.mpr hp
        · intro _
          rfl

theorem findFirst_spec {p : ℕ → Bool} {n k : ℕ} (h : findFirst p n = some k) :
    k < n ∧ p k = true ∧ ∀ j, j < k → p j = false := by
  induction n with
  | zero => simp [findFirst] at h
  | succ m ih =>
    unfold findFirst at h
    cases hm : findFirst p m with
    | some k' =>
      rw [hm] at h
      simp only [Option.some.injEq] at h
      subst h
      have hc := ih hm
      exact ⟨Nat.lt_succ_of_lt hc.1, hc.2.1, hc.2.2⟩
    | none =>
      rw [hm] at h
      by_cases hp : p m = true
      · rw [if_pos hp] at h
        simp only [Option.some.injEq] at h
        subst h
        exact ⟨Nat.lt_succ_self _, hp, fun j hj => findFirst_eq_none.mp hm j hj⟩
      · rw [if_neg hp] at h
        exact absurd h (by simp)

theorem findFirst_eq_some {p : ℕ → Bool} {n k : ℕ} :
    findFirst p n = some k ↔ k < n ∧ p k = true ∧ ∀ j, j < k → p j = false := by
  constructor
  · exact findFirst_spec
  · rintro ⟨hk1, hk2, hk3⟩
    cases hm : findFirst p n with
    | some k' =>
      have hc := findFirst_spec hm
      rcases Nat.lt_trichotomy k k' with h | h | h
      · rw [hc.2.2 k h] at hk2
        exact absurd hk2 (by simp)
      · rw [h]
      · rw [hk3 k' h] at hc
        exact absurd hc.2.1 (by simp)
    | none =>
      rw [findFirst_eq_none.mp hm k hk1] at hk2
      exact absurd hk2 (by simp)

theorem findLast_eq_none {p : ℕ → Bool} {n : ℕ} :
    findLast p n = none ↔ ∀ k, k < n → p k = false := by
  induction n with
  | zero => simp [findLast]
  | succ m ih =>
    unfold findLast
    by_cases hp : p m = true
    · rw [if_pos hp]
      constructor
      · intro h
        exact absurd h (by simp)
      · intro h
        rw [h m (Nat.lt_succ_self m)] at hp
        exact absurd hp (by simp)
    · rw [if_neg hp]
      rw [ih]
      constructor
      · intro h k hk
        rcases Nat.lt_succ_iff_lt_or_eq.mp hk with h' | h'
        · exact h k h'
        · rw [h']
          exact Bool.eq_false_iff.mpr hp
      · intro h k hk
        exact h k (Nat.lt_succ_of_lt hk)

theorem findLast_spec {p : ℕ → Bool} {n k : ℕ} (h : findLast p n = some k) :
    k < n ∧ p k = true ∧ ∀ j, k < j → j < n → p j = false := by
  induction n with
  | zero => simp [findLast] at h
  | succ m ih =>
    unfold findLast at h
    by_cases hp : p m = true
    · rw [if_pos hp] at h
      simp only [Option.some.injEq] at h
      subst h
      exact ⟨Nat.lt_succ_self _, hp, fun j hj1 hj2 => absurd hj2 (by omega)⟩
    · rw [if_neg hp] at h
      have hc := ih h
      refine ⟨Nat.lt_succ_of_lt hc.1, hc.2.1, fun j hj1 hj2 => ?_⟩
      rcases Nat.lt_succ_iff_lt_or_eq.mp hj2 with h' | h'
      · exact hc.2.2 j hj1 h'
      · rw [h']
        exact Bool.eq_false_iff.mpr hp

theorem findLast_eq_some {p : ℕ → Bool} {n k : ℕ} :
    findLast p n = some k ↔ k < n ∧ p k = true ∧ ∀ j, k < j → j < n → p j = false := by
  constructor
  · exact findLast_spec
  · rintro ⟨hk1, hk2, hk3⟩
    cases hm : findLast p n with
    | some k' =>
      have hc := findLast_spec hm
      rcases Nat.lt_trichotomy k k' with h | h | h
      · rw [hk3 k' h hc.1] at hc
        exact absurd hc.2.1 (by simp)
      · rw [h]
      · rw [hc.2.2 k h hk1] at hk2
        exact absurd hk2 (by simp)
    | none =>
      rw [findLast_eq_none.mp hm k hk1] at hk2
      exact absurd hk2 (by simp)

/-! ### Bridging lemmas between pixels and row/column predicates -/

theorem binarize_ne_zero {t : ℕ} {p : Pixel} : (binarize t p != 0) = true ↔ t < lum p := by
  unfold binarize
  split_ifs with h
  · simpa using h
  · simpa using h

theorem lum_default : lum (0, 0, 0) = 0 := by decide

theorem rowNz_iff {t : ℕ} {img : Img} {i : ℕ} :
    rowNz t img i = true ↔ ∃ j, j < (img.getD i []).length ∧ t < lum (pixelAt img i j) := by
  unfold rowNz
  rw [List.any_eq_true]
  constructor
  · rintro ⟨p, hp, hb⟩
    obtain ⟨j, hj, hpj⟩ := List.getElem_of_mem hp
    refine ⟨j, hj, ?_⟩
    have : pixelAt img i j = p := by
      unfold pixelAt
      rw [List.getD_eq_getElem _ _ hj, hpj]
    rw [this]
    exact binarize_ne_zero.mp hb
  · rintro ⟨j, hj, hl⟩
    refine ⟨pixelAt img i j, ?_, ?_⟩
    · unfold pixelAt
      rw [List.getD_eq_getElem _ _ hj]
      exact List.getElem_mem hj
    · exact binarize_ne_zero.mpr hl

theorem colNz_iff {t : ℕ} {img : Img} {j : ℕ} :
    colNz t img j = true ↔ ∃ i, i < img.length ∧ j < (img.getD i []).length ∧ t < lum (pixelAt img i j) := by
  unfold colNz
  rw [List.any_eq_true]
  constructor
  · rintro ⟨row, hrow, hb⟩
    obtain ⟨i, hi, hri⟩ := List.getElem_of_mem hrow
    have hrowD : img.getD i [] = row := by
      rw [List.getD_eq_getElem _ _ hi, hri]
    by_cases hj : j < row.length
    · refine ⟨i, hi, ?_, ?_⟩
      · rw [hrowD]; exact hj
      · have : pixelAt img i j = row.getD j (0, 0, 0) := by
          unfold pixelAt
          rw [hrowD]
        rw [this]
        exact binarize_ne_zero.mp hb
    · exfalso
      have : row.getD j (0, 0, 0) = (0, 0, 0) := by
        rw [List.getD_eq_default]
        omega
      rw [this] at hb
      have := binarize_ne_zero.mp hb
      rw [lum_default] at this
      omega
  · rintro ⟨i, hi, hj, hl⟩
    refine ⟨img.getD i [], ?_, ?_⟩
    · rw [List.getD_eq_getElem _ _ hi]
      exact List.getElem_mem hi
    · exact binarize_ne_zero.mpr hl

/-- For a rectangular image, a non-zero row yields a non-zero pixel in a
column inside the width, and vice versa. -/
theorem row_length_eq {img : Img} (hR : Rect img) {i : ℕ} (hi : i < img.length) :
    (img.getD i []).length = imgWidth img := by
  rw [List.getD_eq_getElem _ _ hi]
  exact hR _ (List.getElem_mem hi)

/-! ### Characterization of `getbbox` -/

theorem getbbox_eq_none {t : ℕ} {img : Img} (hR : Rect img) :
    getbbox t img = none ↔ ∀ i, i < imgHeight img → rowNz t img i = false := by
  unfold getbbox
  constructor
  · intro h
    cases h1 : findFirst (rowNz t img) (imgHeight img) with
    | none => exact fun i hi => findFirst_eq_none.mp h1 i hi
    | some u =>
      cases h2 : findLast (rowNz t img) (imgHeight img) with
      | none =>
        have hu := findFirst_spec h1
        rw [findLast_eq_none.mp h2 u hu.1] at hu
        exact absurd hu.2.1 (by simp)
      | some lo =>
        cases h3 : findFirst (colNz t img) (imgWidth img) with
        | none =>
          -- a non-zero row gives a non-zero column: contradiction
          have hu := findFirst_spec h1
          obtain ⟨j, hj, hl⟩ := rowNz_iff.mp hu.2.1
          have hcol : colNz t img j = true := colNz_iff.mpr ⟨u, hu.1, hj, hl⟩
          have hjw : j < imgWidth img := by
            rw [row_length_eq hR hu.1] at hj
            exact hj
          rw [findFirst_eq_none.mp h3 j hjw] at hcol
          exact absurd hcol (by simp)
        | some le =>
          cases h4 : findLast (colNz t img) (imgWidth img) with
          | none =>
            have hle := findFirst_spec h3
            rw [findLast_eq_none.mp h4 le hle.1] at hle
            exact absurd hle.2.1 (by simp)
          | some ri =>
            rw [h1, h2, h3, h4] at h
            exact absurd h (by simp)
  · intro h
    have h1 : findFirst (rowNz t img) (imgHeight img) = none := findFirst_eq_none.mpr h
    rw [h1]

theorem getbbox_destruct {t : ℕ} {img : Img} {le u ri lo : ℕ}
    (h : getbbox t img = some (le, u, ri, lo)) :
    ∃ lo0 ri0, lo = lo0 + 1 ∧ ri = ri0 + 1 ∧
      findFirst (rowNz t img) (imgHeight img) = some u ∧
      findLast (rowNz t img) (imgHeight img) = some lo0 ∧
      findFirst (colNz t img) (imgWidth img) = some le ∧
      findLast (colNz t img) (imgWidth img) = some ri0 := by
  unfold getbbox at h
  cases h1 : findFirst (rowNz t img) (imgHeight img) with
  | none => rw [h1] at h; exact absurd h (by simp)
  | some u' =>
    cases h2 : findLast (rowNz t img) (imgHeight img) with
    | none => rw [h1, h2] at h; exact absurd h (by simp)
    | some lo0 =>
      cases h3 : findFirst (colNz t img) (imgWidth img) with
      | none => rw [h1, h2, h3] at h; exact absurd h (by simp)
      | some le' =>
        cases h4 : findLast (colNz t img) (imgWidth img) with
        | none => rw [h1, h2, h3, h4] at h; exact absurd h (by simp)
        | some ri0 =>
          rw [h1, h2, h3, h4] at h
          simp only [Option.some.injEq, Prod.mk.injEq] at h
          obtain ⟨hle, hu, hri, hlo⟩ := h
          refine ⟨lo0, ri0, hlo.symm, hri.symm, ?_, rfl, ?_, rfl⟩
          · rw [hu]
          · rw [hle]

/-! ### Structure of `cropImg` -/

theorem cropImg_length {img : Img} {le u ri lo : ℕ} :
    (cropImg img le u ri lo).length = min (lo - u) (img.length - u) := by
  unfold cropImg
  rw [List.length_map, List.length_take, List.length_drop]

theorem slice_length {row : List Pixel} {le n : ℕ} :
    ((row.drop le).take n).length = min n (row.length - le) := by
  rw [List.length_take, List.length_drop]

theorem slice_getD {row : List Pixel} {le n j : ℕ} {d : Pixel}
    (h : j < min n (row.length - le)) :
    ((row.drop le).take n).getD j d = row.getD (le + j) d := by
  have hj : j < ((row.drop le).take n).length := by
    rw [slice_length]
    exact h
  have hj2 : le + j < row.length := by omega
  rw [List.getD_eq_getElem _ _ hj, List.getD_eq_getElem _ _ hj2]
  rw [List.getElem_take, List.getElem_drop]

theorem cropImg_getD {img : Img} {le u ri lo i : ℕ}
    (h : i < (cropImg img le u ri lo).length) :
    (cropImg img le u ri lo).getD i [] = ((img.getD (u + i) []).drop le).take (ri - le) := by
  have hlen : i < (((img.drop u).take (lo - u)).map
      (fun row => (row.drop le).take (ri - le))).length := h
  have hmin : i < min (lo - u) (img.length - u) := by
    rw [← cropImg_length]
    exact h
  have hui : u + i < img.length := by omega
  unfold cropImg
  rw [List.getD_eq_getElem _ _ hlen, List.getElem_map, List.getElem_take, List.getElem_drop]
  rw [List.getD_eq_getElem _ _ hui]

theorem headD_eq_getD_zero {α : Type} (l : List α) (d : α) : l.headD d = l.getD 0 d := by
  cases l <;> rfl

/-! ### Idempotence of trimming -/

theorem trimImage_of_none {t : ℕ} {img : Img} (h : getbbox t img = none) :
    trimImage t img = img := by
  unfold trimImage
  rw [h]

theorem trimImage_of_some {t : ℕ} {img : Img} {le u ri lo : ℕ}
    (h : getbbox t img = some (le, u, ri, lo)) :
    trimImage t img = cropImg img le u ri lo := by
  unfold trimImage
  rw [h]

theorem trim_idem {t : ℕ} {img : Img} (hR : Rect img) :
    trimImage t (trimImage t img) = trimImage t img := by
  cases hbb : getbbox t img with
  | none =>
    rw [trimImage_of_none hbb, trimImage_of_none hbb]
  | some box =>
    obtain ⟨le, u, ri, lo⟩ := box
    obtain ⟨lo0, ri0, hlo, hri, h1, h2, h3, h4⟩ := getbbox_destruct hbb
    subst hlo
    subst hri
    have hu := findFirst_spec h1
    have hlo0 := findLast_spec h2
    have hle := findFirst_spec h3
    have hri0 := findLast_spec h4
    have hule : u ≤ lo0 := by
      by_contra hc
      rw [hu.2.2 lo0 (by omega)] at hlo0
      exact absurd hlo0.2.1 (by simp)
    have hleri : le ≤ ri0 := by
      by_contra hc
      rw [hle.2.2 ri0 (by omega)] at hri0
      exact absurd hri0.2.1 (by simp)
    -- bounds on non-zero rows and columns of the original image
    have row_bounds : ∀ i, i < imgHeight img → rowNz t img i = true → u ≤ i ∧ i ≤ lo0 := by
      intro i hi hnz
      constructor
      · by_contra hc
        rw [hu.2.2 i (by omega)] at hnz
        exact absurd hnz (by simp)
      · by_contra hc
        rw [hlo0.2.2 i (by omega) hi] at hnz
        exact absurd hnz (by simp)
    have col_bounds : ∀ j, j < imgWidth img → colNz t img j = true → le ≤ j ∧ j ≤ ri0 := by
      intro j hj hnz
      constructor
      · by_contra hc
        rw [hle.2.2 j (by omega)] at hnz
        exact absurd hnz (by simp)
      · by_contra hc
        rw [hri0.2.2 j (by omega) hj] at hnz
        exact absurd hnz (by simp)
    set img' := cropImg img le u (ri0 + 1) (lo0 + 1) with himg'
    rw [trimImage_of_some hbb]
    rw [← himg']
    -- structure of the cropped image
    have himglen : lo0 < img.length := hlo0.1
    have hlen' : img'.length = lo0 + 1 - u := by
      rw [himg', cropImg_length]
      omega
    have hrowlen' : ∀ i, i < img'.length → (img'.getD i []).length = ri0 + 1 - le := by
      intro i hi
      rw [himg', cropImg_getD (by rw [← himg']; exact hi), slice_length]
      have hui : u + i < img.length := by omega
      rw [row_length_eq hR hui]
      have : ri0 < imgWidth img := hri0.1
      omega
    have hW' : imgWidth img' = ri0 + 1 - le := by
      unfold imgWidth
      rw [headD_eq_getD_zero]
      apply hrowlen'
      omega
    have hH' : imgHeight img' = lo0 + 1 - u := hlen'
    -- pixel transfer between the crop and the original
    have hpix : ∀ i j, i < img'.length → j < ri0 + 1 - le →
        pixelAt img' i j = pixelAt img (u + i) (le + j) := by
      intro i j hi hj
      unfold pixelAt
      rw [himg', cropImg_getD (by rw [← himg']; exact hi)]
      apply slice_getD
      have hui : u + i < img.length := by omega
      rw [row_length_eq hR hui]
      have : ri0 < imgWidth img := hri0.1
      omega
    -- the first and last rows/columns of the crop are non-zero
    have hrow0 : rowNz t img' 0 = true := by
      obtain ⟨j, hj, hl⟩ := rowNz_iff.mp hu.2.1
      rw [row_length_eq hR hu.1] at hj
      have hcol : colNz t img j = true := by
        apply colNz_iff.mpr
        exact ⟨u, hu.1, by rw [row_length_eq hR hu.1]; exact hj, hl⟩
      obtain ⟨hjle, hjri⟩ := col_bounds j hj hcol
      apply rowNz_iff.mpr
      refine ⟨j - le, ?_, ?_⟩
      · rw [hrowlen' 0 (by omega)]
        omega
      · rw [hpix 0 (j - le) (by omega) (by omega)]
        have : u + 0 = u := by omega
        rw [this]
        have : le + (j - le) = j := by omega
        rw [this]
        exact hl
    have hrowlast : rowNz t img' (lo0 - u) = true := by
      obtain ⟨j, hj, hl⟩ := rowNz_iff.mp hlo0.2.1
      rw [row_length_eq hR hlo0.1] at hj
      have hcol : colNz t img j = true := by
        apply colNz_iff.mpr
        exact ⟨lo0, hlo0.1, by rw [row_length_eq hR hlo0.1]; exact hj, hl⟩
      obtain ⟨hjle, hjri⟩ := col_bounds j hj hcol
      apply rowNz_iff.mpr
      refine ⟨j - le, ?_, ?_⟩
      · rw [hrowlen' (lo0 - u) (by omega)]
        omega
      · rw [hpix (lo0 - u) (j - le) (by omega) (by omega)]
        have : u + (lo0 - u) = lo0 := by omega
        rw [this]
        have : le + (j - le) = j := by omega
        rw [this]
        exact hl
    have hcol0 : colNz t img' 0 = true := by
      obtain ⟨i, hi, hjlen, hl⟩ := colNz_iff.mp hle.2.1
      have hrow : rowNz t img i = true := rowNz_iff.mpr ⟨le, hjlen, hl⟩
      obtain ⟨hiu, hilo⟩ := row_bounds i hi hrow
      apply colNz_iff.mpr
      refine ⟨i - u, by omega, ?_, ?_⟩
      · rw [hrowlen' (i - u) (by omega)]
        omega
      · rw [hpix (i - u) 0 (by omega) (by omega)]
        have : u + (i - u) = i := by omega
        rw [this]
        have : le + 0 = le := by omega
        rw [this]
        exact hl
    have hcollast : colNz t img' (ri0 - le) = true := by
      obtain ⟨i, hi, hjlen, hl⟩ := colNz_iff.mp hri0.2.1
      have hrow : rowNz t img i = true := rowNz_iff.mpr ⟨ri0, hjlen, hl⟩
      obtain ⟨hiu, hilo⟩ := row_bounds i hi hrow
      apply colNz_iff.mpr
      refine ⟨i - u, by omega, ?_, ?_⟩
      · rw [hrowlen' (i - u) (by omega)]
        omega
      · rw [hpix (i - u) (ri0 - le) (by omega) (by omega)]
        have : u + (i - u) = i := by omega
        rw [this]
        have : le + (ri0 - le) = ri0 := by omega
        rw [this]
        exact hl
    -- bounding box of the crop
    have f1 : findFirst (rowNz t img') (imgHeight img') = some 0 := by
      apply findFirst_eq_some.mpr
      exact ⟨by rw [hH']; omega, hrow0, fun j hj => absurd hj (by omega)⟩
    have f2 : findLast (rowNz t img') (imgHeight img') = some (lo0 - u) := by
      apply findLast_eq_some.mpr
      refine ⟨by rw [hH']; omega, hrowlast, fun j hj1 hj2 => ?_⟩
      rw [hH'] at hj2
      omega
    have f3 : findFirst (colNz t img') (imgWidth img') = some 0 := by
      apply findFirst_eq_some.mpr
      exact ⟨by rw [hW']; omega, hcol0, fun j hj => absurd hj (by omega)⟩
    have f4 : findLast (colNz t img') (imgWidth img') = some (ri0 - le) := by
      apply findLast_eq_some.mpr
      refine ⟨by rw [hW']; omega, hcollast, fun j hj1 hj2 => ?_⟩
      rw [hW'] at hj2
      omega
    have hbb' : getbbox t img' = some (0, 0, (ri0 - le) + 1, (lo0 - u) + 1) := by
      unfold getbbox
      rw [f1, f2, f3, f4]
    rw [trimImage_of_some hbb']
    -- cropping the crop to its full extent is the identity
    unfold cropImg
    rw [List.drop_zero]
    have htake : img'.take ((lo0 - u) + 1 - 0) = img' := by
      apply List.take_of_length_le
      omega
    rw [htake]
    have : ∀ row ∈ img', (row.drop 0).take ((ri0 - le) + 1 - 0) = row := by
      intro row hrow
      rw [List.drop_zero]
      apply List.take_of_length_le
      obtain ⟨i, hi, hri⟩ := List.getElem_of_mem hrow
      have : (img'.getD i []).length = ri0 + 1 - le := hrowlen' i hi
      rw [List.getD_eq_getElem _ _ hi, hri] at this
      omega
    calc img'.map (fun row => (row.drop 0).take ((ri0 - le) + 1 - 0))
        = img'.map id := List.map_congr_left this
      _ = img' := List.map_id img'

theorem binarize_eq_zero {t : ℕ} {p : Pixel} : binarize t p = 0 ↔ ¬ t < lum p := by
  unfold binarize
  split_ifs with h
  · simp [h]
  · simp [h]

theorem getbbox_none_iff_all_zero {t : ℕ} {img : Img} (hR : Rect img) :
    getbbox t img = none ↔
      ∀ i j, i < imgHeight img → j < imgWidth img → binarize t (pixelAt img i j) = 0 := by
  rw [getbbox_eq_none hR]
  constructor
  · intro h i j hi hj
    rw [binarize_eq_zero]
    intro hl
    have : rowNz t img i = true := by
      apply rowNz_iff.mpr
      refine ⟨j, ?_, hl⟩
      rw [row_length_eq hR hi]
      exact hj
    rw [h i hi] at this
    exact absurd this (by simp)
  · intro h i hi
    cases hnz : rowNz t img i with
    | false => rfl
    | true =>
      obtain ⟨j, hj, hl⟩ := rowNz_iff.mp hnz
      rw [row_length_eq hR hi] at hj
      have := h i j hi hj
      rw [binarize_eq_zero] at this
      exact absurd hl this

theorem binarize_ne_zero' {t : ℕ} {p : Pixel} : binarize t p ≠ 0 ↔ t < lum p := by
  rw [Ne, binarize_eq_zero, not_not]

/-- C7: `TrimImageBorders.run` binarizes the luminance against the threshold
and crops the original image to the tight bounding box of the non-zero
region when one exists; when the binarized image is entirely zero it returns
the image unchanged rather than failing. -/
theorem trim_spec (t : ℕ) (img : Img) (hR : Rect img) :
    (getbbox t img = none → trimImage t img = img) ∧
    (getbbox t img = none ↔
      ∀ i j, i < imgHeight img → j < imgWidth img → binarize t (pixelAt img i j) = 0) ∧
    (∀ le u ri lo, getbbox t img = some (le, u, ri, lo) →
      trimImage t img = cropImg img le u ri lo ∧
      u < lo ∧ lo ≤ imgHeight img ∧ le < ri ∧ ri ≤ imgWidth img ∧
      (∀ i j, i < imgHeight img → j < imgWidth img →
        binarize t (pixelAt img i j) ≠ 0 → u ≤ i ∧ i < lo ∧ le ≤ j ∧ j < ri) ∧
      (∃ j, le ≤ j ∧ j < ri ∧ binarize t (pixelAt img u j) ≠ 0) ∧
      (∃ j, le ≤ j ∧ j < ri ∧ binarize t (pixelAt img (lo - 1) j) ≠ 0) ∧
      (∃ i, u ≤ i ∧ i < lo ∧ binarize t (pixelAt img i le) ≠ 0) ∧
      (∃ i, u ≤ i ∧ i < lo ∧ binarize t (pixelAt img i (ri - 1)) ≠ 0)) := by
  refine ⟨trimImage_of_none, getbbox_none_iff_all_zero hR, ?_⟩
  intro le u ri lo hbb
  obtain ⟨lo0, ri0, hlo, hri, h1, h2, h3, h4⟩ := getbbox_destruct hbb
  subst hlo
  subst hri
  have hu := findFirst_spec h1
  have hlo0 := findLast_spec h2
  have hle := findFirst_spec h3
  have hri0 := findLast_spec h4
  have hule : u ≤ lo0 := by
    by_contra hc
    rw [hu.2.2 lo0 (by omega)] at hlo0
    exact absurd hlo0.2.1 (by simp)
  have hleri : le ≤ ri0 := by
    by_contra hc
    rw [hle.2.2 ri0 (by omega)] at hri0
    exact absurd hri0.2.1 (by simp)
  have row_bounds : ∀ i, i < imgHeight img → rowNz t img i = true → u ≤ i ∧ i ≤ lo0 := by
    intro i hi hnz
    constructor
    · by_contra hc
      rw [hu.2.2 i (by omega)] at hnz
      exact absurd hnz (by simp)
    · by_contra hc
      rw [hlo0.2.2 i (by omega) hi] at hnz
      exact absurd hnz (by simp)
  have col_bounds : ∀ j, j < imgWidth img → colNz t img j = true → le ≤ j ∧ j ≤ ri0 := by
    intro j hj hnz
    constructor
    · by_contra hc
      rw [hle.2.2 j (by omega)] at hnz
      exact absurd hnz (by simp)
    · by_contra hc
      rw [hri0.2.2 j (by omega) hj] at hnz
      exact absurd hnz (by simp)
  refine ⟨trimImage_of_some hbb, by omega, by omega, by omega, by omega, ?_, ?_, ?_, ?_, ?_⟩
  · -- tightness: every non-zero pixel lies inside the box
    intro i j hi hj hnz
    rw [binarize_ne_zero'] at hnz
    have hrow : rowNz t img i = true := by
      apply rowNz_iff.mpr
      exact ⟨j, by rw [row_length_eq hR hi]; exact hj, hnz⟩
    have hcol : colNz t img j = true := by
      apply colNz_iff.mpr
      exact ⟨i, hi, by rw [row_length_eq hR hi]; exact hj, hnz⟩
    have hr := row_bounds i hi hrow
    have hc := col_bounds j hj hcol
    omega
  · -- the first row of the box contains a non-zero pixel
    obtain ⟨j, hj, hl⟩ := rowNz_iff.mp hu.2.1
    rw [row_length_eq hR hu.1] at hj
    have hcol : colNz t img j = true := by
      apply colNz_iff.mpr
      exact ⟨u, hu.1, by rw [row_length_eq hR hu.1]; exact hj, hl⟩
    have hc := col_bounds j hj hcol
    exact ⟨j, by omega, by omega, binarize_ne_zero'.mpr hl⟩
  · -- the last row of the box contains a non-zero pixel
    obtain ⟨j, hj, hl⟩ := rowNz_iff.mp hlo0.2.1
    rw [row_length_eq hR hlo0.1] at hj
    have hcol : colNz t img j = true := by
      apply colNz_iff.mpr
      exact ⟨lo0, hlo0.1, by rw [row_length_eq hR hlo0.1]; exact hj, hl⟩
    have hc := col_bounds j hj hcol
    have hsub : lo0 + 1 - 1 = lo0 := by omega
    rw [hsub]
    exact ⟨j, by omega, by omega, binarize_ne_zero'.mpr hl⟩
  · -- the first column of the box contains a non-zero pixel
    obtain ⟨i, hi, hjlen, hl⟩ := colNz_iff.mp hle.2.1
    have hrow : rowNz t img i = true := rowNz_iff.mpr ⟨le, hjlen, hl⟩
    have hr := row_bounds i hi hrow
    exact ⟨i, by omega, by omega, binarize_ne_zero'.mpr hl⟩
  · -- the last column of the box contains a non-zero pixel
    obtain ⟨i, hi, hjlen, hl⟩ := colNz_iff.mp hri0.2.1
    have hrow : rowNz t img i = true := rowNz_iff.mpr ⟨ri0, hjlen, hl⟩
    have hr := row_bounds i hi hrow
    have hsub : ri0 + 1 - 1 = ri0 := by omega
    rw [hsub]
    exact ⟨i, by omega, by omega, binarize_ne_zero'.mpr hl⟩

/-- Witness for C7 at a concrete input: the 3×3 image with a white center is
cropped to the box `(1, 1, 2, 2)` at threshold 10. -/
theorem trim_spec_witness : trimImage 10 imgT = cropImg imgT 1 1 2 2 :=
  ((trim_spec 10 imgT (by decide)).2.2 1 1 2 2 (by decide)).1

/-- C8: trimming is idempotent; re-trimming an already-trimmed image with the
same threshold leaves the dimensions unchanged. -/
theorem trim_idempotent_dims (t : ℕ) (img : Img) (hR : Rect img) :
    imgHeight (trimImage t (trimImage t img)) = imgHeight (trimImage t img) ∧
    imgWidth (trimImage t (trimImage t img)) = imgWidth (trimImage t img) := by
  rw [trim_idem hR]
  exact ⟨rfl, rfl⟩

/-- Witness for C8 at a concrete input. -/
theorem trim_idempotent_dims_witness :
    imgHeight (trimImage 10 (trimImage 10 imgT)) = imgHeight (trimImage 10 imgT) ∧
    imgWidth (trimImage 10 (trimImage 10 imgT)) = imgWidth (trimImage 10 imgT) :=
  trim_idempotent_dims 10 imgT (by decide)

/-! ### Structure of `addBorderImage` -/

theorem rangeMap_length {β : Type} (f : ℕ → β) (n : ℕ) :
    ((List.range n).map f).length = n := by
  rw [List.length_map, List.length_range]

theorem rangeMap_getD {β : Type} (f : ℕ → β) {n i : ℕ} (h : i < n) (d : β) :
    ((List.range n).map f).getD i d = f i := by
  have hl : i < ((List.range n).map f).length := by
    rw [rangeMap_length]
    exact h
  rw [List.getD_eq_getElem _ _ hl, List.getElem_map, List.getElem_range]

theorem addBorder_fst_height (img : Img) (bw : ℕ) (q : ℚ) (r g b : ℕ) :
    imgHeight (addBorderImage img bw q r g b).1 =
      imgHeight img + 2 * max bw (ratioWidth (imgHeight img) (imgWidth img) q) := by
  unfold addBorderImage imgHeight
  rw [List.length_map, List.length_range]

theorem addBorder_fst_getD (img : Img) (bw : ℕ) (q : ℚ) (r g b : ℕ) {i : ℕ}
    (hi : i < imgHeight img + 2 * max bw (ratioWidth (imgHeight img) (imgWidth img) q)) :
    (addBorderImage img bw q r g b).1.getD i [] =
      (List.range (imgWidth img + 2 * max bw (ratioWidth (imgHeight img) (imgWidth img) q))).map
        (fun j =>
          if max bw (ratioWidth (imgHeight img) (imgWidth img) q) ≤ i ∧
             i < max bw (ratioWidth (imgHeight img) (imgWidth img) q) + imgHeight img ∧
             max bw (ratioWidth (imgHeight img) (imgWidth img) q) ≤ j ∧
             j < max bw (ratioWidth (imgHeight img) (imgWidth img) q) + imgWidth img
          then pixelAt img (i - max bw (ratioWidth (imgHeight img) (imgWidth img) q))
            (j - max bw (ratioWidth (imgHeight img) (imgWidth img) q))
          else (r, g, b)) := by
  unfold addBorderImage
  exact rangeMap_getD _ hi _

theorem addBorder_snd_length (img : Img) (bw : ℕ) (q : ℚ) (r g b : ℕ) :
    (addBorderImage img bw q r g b).2.length =
      imgHeight img + 2 * max bw (ratioWidth (imgHeight img) (imgWidth img) q) := by
  unfold addBorderImage
  rw [List.length_map, List.length_range]

theorem addBorder_snd_getD (img : Img) (bw : ℕ) (q : ℚ) (r g b : ℕ) {i : ℕ}
    (hi : i < imgHeight img + 2 * max bw (ratioWidth (imgHeight img) (imgWidth img) q)) :
    (addBorderImage img bw q r g b).2.getD i [] =
      (List.range (imgWidth img + 2 * max bw (ratioWidth (imgHeight img) (imgWidth img) q))).map
        (fun j =>
          if max bw (ratioWidth (imgHeight img) (imgWidth img) q) ≤ i ∧
             i < max bw (ratioWidth (imgHeight img) (imgWidth img) q) + imgHeight img ∧
             max bw (ratioWidth (imgHeight img) (imgWidth img) q) ≤ j ∧
             j < max bw (ratioWidth (imgHeight img) (imgWidth img) q) + imgWidth img
          then (0 : ℚ) else 1) := by
  unfold addBorderImage
  exact rangeMap_getD _ hi _

/-- C1 (amended): `AddImageBorder.add_border` with effective width
`f = max(border_width, int(border_ratio * min(h, w)))` produces a canvas of
size `(h + 2f, w + 2f)` filled with the given `(r, g, b)` color outside the
centered copy of the original image, and a mask of the same size that is `0`
over the pasted region and `1` over the border. -/
theorem add_border_spec (img : Img) (bw : ℕ) (q : ℚ) (r g b : ℕ) (h w f : ℕ)
    (hR : Rect img) (hh : imgHeight img = h) (hw : imgWidth img = w)
    (hf : f = max bw (ratioWidth h w q)) :
    imgHeight (addBorderImage img bw q r g b).1 = h + 2 * f ∧
    imgWidth (addBorderImage img bw q r g b).1 = w + 2 * f ∧
    Rect (addBorderImage img bw q r g b).1 ∧
    (∀ i j, i < h + 2 * f → j < w + 2 * f →
      pixelAt (addBorderImage img bw q r g b).1 i j =
        if f ≤ i ∧ i < f + h ∧ f ≤ j ∧ j < f + w then pixelAt img (i - f) (j - f)
        else (r, g, b)) ∧
    (addBorderImage img bw q r g b).2.length = h + 2 * f ∧
    (∀ row ∈ (addBorderImage img bw q r g b).2, row.length = w + 2 * f) ∧
    (∀ i j, i < h + 2 * f → j < w + 2 * f →
      maskAt (addBorderImage img bw q r g b).2 i j =
        if f ≤ i ∧ i < f + h ∧ f ≤ j ∧ j < f + w then 0 else 1) := by
  subst hh
  subst hw
  subst hf
  have hH := addBorder_fst_height img bw q r g b
  have hW : imgWidth (addBorderImage img bw q r g b).1 =
      imgWidth img + 2 * max bw (ratioWidth (imgHeight img) (imgWidth img) q) := by
    rcases Nat.eq_zero_or_pos
        (imgHeight img + 2 * max bw (ratioWidth (imgHeight img) (imgWidth img) q)) with hz | hpos
    · have hh0 : imgHeight img = 0 := by omega
      have hf0 : max bw (ratioWidth (imgHeight img) (imgWidth img) q) = 0 := by omega
      have hnil : img = [] := List.length_eq_zero.mp hh0
      subst hnil
      have : (addBorderImage [] bw q r g b).1 = [] := by
        have := addBorder_fst_height [] bw q r g b
        rw [hz] at this
        exact List.length_eq_zero.mp this
      rw [this, hf0]
      simp [imgWidth]
    · calc imgWidth (addBorderImage img bw q r g b).1
          = ((addBorderImage img bw q r g b).1.getD 0 []).length :=
            congrArg List.length (headD_eq_getD_zero _ _)
        _ = imgWidth img + 2 * max bw (ratioWidth (imgHeight img) (imgWidth img) q) := by
            rw [addBorder_fst_getD img bw q r g b hpos, rangeMap_length]
  refine ⟨hH, hW, ?_, ?_, addBorder_snd_length img bw q r g b, ?_, ?_⟩
  · -- the bordered image is rectangular
    intro row hrow
    obtain ⟨i, hi, hri⟩ := List.getElem_of_mem hrow
    have hiH : i < imgHeight img + 2 * max bw (ratioWidth (imgHeight img) (imgWidth img) q) := by
      rw [← hH]
      exact hi
    have : (addBorderImage img bw q r g b).1.getD i [] = row := by
      rw [List.getD_eq_getElem _ _ hi, hri]
    rw [← this, addBorder_fst_getD img bw q r g b hiH, rangeMap_length, hW]
  · -- pixel values
    intro i j hi hj
    unfold pixelAt
    rw [addBorder_fst_getD img bw q r g b hi, rangeMap_getD _ hj]
    rfl
  · -- the mask is rectangular
    intro row hrow
    obtain ⟨i, hi, hri⟩ := List.getElem_of_mem hrow
    have hiH : i < imgHeight img + 2 * max bw (ratioWidth (imgHeight img) (imgWidth img) q) := by
      rw [← addBorder_snd_length img bw q r g b]
      exact hi
    have : (addBorderImage img bw q r g b).2.getD i [] = row := by
      rw [List.getD_eq_getElem _ _ hi, hri]
    rw [← this, addBorder_snd_getD img bw q r g b hiH, rangeMap_length]
  · -- mask values
    intro i j hi hj
    unfold maskAt
    rw [addBorder_snd_getD img bw q r g b hi, rangeMap_getD _ hj]

/-- Witness for C1 at a concrete input: a 3×3 image with `border_width = 10`
and `border_ratio = 0` yields a 23×23 canvas. -/
theorem add_border_spec_witness :
    imgHeight (addBorderImage imgT 10 0 255 0 0).1 = 3 + 2 * 10 ∧
    imgWidth (addBorderImage imgT 10 0 255 0 0).1 = 3 + 2 * 10 := by
  have hf : (10 : ℕ) = max 10 (ratioWidth 3 3 0) := by
    have : ratioWidth 3 3 0 = 0 := by
      unfold ratioWidth
      norm_num
    rw [this]
    simp
  have hmain := add_border_spec imgT 10 0 255 0 0 3 3 10 (by decide) (by decide) (by decide) hf
  exact ⟨hmain.1, hmain.2.1⟩

/-- Counterexample for C1 as stated: with a 3×3 image, `border_width = 0` and
`border_ratio = 1/2`, the code truncates `int(min(h,w) * ratio) = int(1.5) = 1`
and produces a 5×5 canvas, while the claim formula
`e = max(border_width, border_ratio * min(h, w)) = 1.5` predicts `h + 2e = 6`. -/
theorem add_border_ratio_counterexample :
    imgHeight (addBorderImage imgT 0 (1 / 2) 255 0 0).1 = 5 ∧
    (imgHeight imgT : ℚ) + 2 * max ((0 : ℕ) : ℚ)
      ((1 / 2) * min (imgHeight imgT : ℚ) (imgWidth imgT : ℚ)) = 6 ∧
    (5 : ℚ) ≠ 6 := by
  have hfl : Int.floor ((min (imgHeight imgT) (imgWidth imgT) : ℚ) * (1 / 2)) = 1 := by
    have : (min (imgHeight imgT) (imgWidth imgT) : ℚ) = 3 := by norm_num [imgHeight, imgWidth, imgT]
    rw [this]
    rw [Int.floor_eq_iff]
    constructor <;> norm_num
  refine ⟨?_, ?_, by norm_num⟩
  · rw [addBorder_fst_height]
    unfold ratioWidth
    rw [hfl]
    decide
  · have h3 : (imgHeight imgT : ℚ) = 3 := by norm_num [imgHeight, imgT]
    have w3 : (imgWidth imgT : ℚ) = 3 := by norm_num [imgWidth, imgT]
    rw [h3, w3]
    norm_num

/-- C9: cropping the bordered image back by the effective border width on
every side recovers the original image exactly. -/
theorem add_border_crop_roundtrip (img : Img) (bw : ℕ) (q : ℚ) (r g b : ℕ) (f : ℕ)
    (hR : Rect img) (hf : f = max bw (ratioWidth (imgHeight img) (imgWidth img) q)) :
    cropImg (addBorderImage img bw q r g b).1 f f
      (f + imgWidth img) (f + imgHeight img) = img := by
  subst hf
  set f := max bw (ratioWidth (imgHeight img) (imgWidth img) q) with hfdef
  have hH := addBorder_fst_height img bw q r g b
  have hH' : (addBorderImage img bw q r g b).1.length = imgHeight img + 2 * f := hH
  have hcl : (cropImg (addBorderImage img bw q r g b).1 f f
      (f + imgWidth img) (f + imgHeight img)).length = imgHeight img := by
    rw [cropImg_length, hH']
    omega
  have hrows : ∀ i, i < imgHeight img →
      (cropImg (addBorderImage img bw q r g b).1 f f
        (f + imgWidth img) (f + imgHeight img)).getD i [] = img.getD i [] := by
    intro i hi
    have hic : i < (cropImg (addBorderImage img bw q r g b).1 f f
        (f + imgWidth img) (f + imgHeight img)).length := by
      rw [hcl]
      exact hi
    rw [cropImg_getD hic]
    have hfi : f + i < imgHeight img + 2 * f := by omega
    rw [addBorder_fst_getD img bw q r g b hfi]
    -- elementwise comparison of the sliced row with the original row
    have hrlen : (img.getD i []).length = imgWidth img := row_length_eq hR hi
    apply List.ext_getElem
    · rw [slice_length, rangeMap_length, hrlen]
      omega
    · intro j hj1 hj2
      have hjw : j < imgWidth img := by
        rw [hrlen] at hj2
        exact hj2
      have hjmin : j < min ((f + imgWidth img) - f)
          ((((List.range (imgWidth img + 2 * f)).map (fun k =>
            if f ≤ f + i ∧ f + i < f + imgHeight img ∧ f ≤ k ∧ k < f + imgWidth img
            then pixelAt img (f + i - f) (k - f) else (r, g, b))).length) - f) := by
        rw [rangeMap_length]
        omega
      rw [← List.getD_eq_getElem _ (0, 0, 0) hj1, ← List.getD_eq_getElem _ (0, 0, 0) hj2]
      rw [slice_getD hjmin]
      have hfj : f + j < imgWidth img + 2 * f := by omega
      rw [rangeMap_getD _ hfj]
      have hcond : f ≤ f + i ∧ f + i < f + imgHeight img ∧ f ≤ f + j ∧
          f + j < f + imgWidth img := by omega
      rw [if_pos hcond]
      have h1 : f + i - f = i := by omega
      have h2 : f + j - f = j := by omega
      rw [h1, h2]
      rfl
  apply List.ext_getElem hcl
  intro i h1 h2
  rw [← List.getD_eq_getElem _ [] h1, ← List.getD_eq_getElem _ [] h2]
  exact hrows i (by rw [← hcl]; exact h1)

/-- Witness for C9 at a concrete input. -/
theorem add_border_crop_roundtrip_witness :
    cropImg (addBorderImage imgT 2 0 9 8 7).1 2 2 (2 + imgWidth imgT) (2 + imgHeight imgT)
      = imgT := by
  have hf : (2 : ℕ) = max 2 (ratioWidth (imgHeight imgT) (imgWidth imgT) 0) := by
    have : ratioWidth (imgHeight imgT) (imgWidth imgT) 0 = 0 := by
      unfold ratioWidth
      norm_num
    rw [this]
    simp
  exact add_border_crop_roundtrip imgT 2 0 9 8 7 2 (by decide) hf

/-! ### Dimension-planner claims -/

/-- C2: `ImageScaleBySpecifiedSide.execute` uses the shorter side as reference
when the flag is set (the longer side otherwise), divides each dimension by
`scale = reference / size`, rounds, and takes the next even integer downwards
(characterized as the even `W` with `W ≤ round < W + 2`). -/
theorem scaleBySide_spec (w h size : ℕ) (shorter : Bool)
    (hw : 0 < w) (hh : 0 < h) (hs : 0 < size) :
    scaleBySide_execute w h size shorter =
      some (make_even (roundHE ((w : ℚ) /
              (((if shorter then min w h else max w h : ℕ) : ℚ) / (size : ℚ)))),
            make_even (roundHE ((h : ℚ) /
              (((if shorter then min w h else max w h : ℕ) : ℚ) / (size : ℚ))))) ∧
    (∀ W H : ℤ, scaleBySide_execute w h size shorter = some (W, H) →
      (2 ∣ W ∧
        W ≤ roundHE ((w : ℚ) /
          (((if shorter then min w h else max w h : ℕ) : ℚ) / (size : ℚ))) ∧
        roundHE ((w : ℚ) /
          (((if shorter then min w h else max w h : ℕ) : ℚ) / (size : ℚ))) < W + 2) ∧
      (2 ∣ H ∧
        H ≤ roundHE ((h : ℚ) /
          (((if shorter then min w h else max w h : ℕ) : ℚ) / (size : ℚ))) ∧
        roundHE ((h : ℚ) /
          (((if shorter then min w h else max w h : ℕ) : ℚ) / (size : ℚ))) < H + 2)) := by
  have hcond : ¬ (size = 0 ∨ (if shorter then min w h else max w h) = 0) := by
    push_neg
    constructor
    · omega
    · cases shorter <;> simp <;> omega
  have hexec : scaleBySide_execute w h size shorter =
      some (make_even (roundHE ((w : ℚ) /
              (((if shorter then min w h else max w h : ℕ) : ℚ) / (size : ℚ)))),
            make_even (roundHE ((h : ℚ) /
              (((if shorter then min w h else max w h : ℕ) : ℚ) / (size : ℚ))))) := by
    unfold scaleBySide_execute
    rw [if_neg hcond]
  refine ⟨hexec, ?_⟩
  intro W H hWH
  rw [hexec] at hWH
  simp only [Option.some.injEq, Prod.mk.injEq] at hWH
  obtain ⟨hW, hH⟩ := hWH
  rw [← hW, ← hH]
  exact ⟨⟨make_even_even _, make_even_le _, lt_make_even_add_two _⟩,
    ⟨make_even_even _, make_even_le _, lt_make_even_add_two _⟩⟩

/-- Witness for C2: the spec scenario, a 1000×500 image with `size = 256` and
`shorter = true` yields 512×256. -/
theorem scaleBySide_spec_witness :
    scaleBySide_execute 1000 500 256 true = some (512, 256) := by
  have hmain := (scaleBySide_spec 1000 500 256 true (by norm_num) (by norm_num) (by norm_num)).1
  rw [hmain]
  have e1 : ((1000 : ℕ) : ℚ) / (((if true then min 1000 500 else max 1000 500 : ℕ) : ℚ) /
      ((256 : ℕ) : ℚ)) = ((512 : ℤ) : ℚ) := by norm_num
  have e2 : ((500 : ℕ) : ℚ) / (((if true then min 1000 500 else max 1000 500 : ℕ) : ℚ) /
      ((256 : ℕ) : ℚ)) = ((256 : ℤ) : ℚ) := by norm_num
  rw [roundHE_eq_of_eq_int e1, roundHE_eq_of_eq_int e2]
  have m1 : make_even 512 = 512 := by decide
  have m2 : make_even 256 = 256 := by decide
  rw [m1, m2]

/-- Counterexample for C4 as stated: the declared minimum `target_max_size = 0`
is accepted, and `ComputeImageScaleRatio` on a 100×100 image then returns
width and height `0`, which are not positive. -/
theorem dimension_positive_counterexample :
    computeScaleRatio_execute 100 100 0 = some (0, 0, 0) ∧ ¬ ((0 : ℤ) < 0) := by
  constructor
  · have hx : computeScaleRatio_execute 100 100 0 =
        some (((0 : ℕ) : ℚ) / (max ((100 : ℕ) : ℚ) ((100 : ℕ) : ℚ)),
          make_even (roundHE (((100 : ℕ) : ℚ) *
            (((0 : ℕ) : ℚ) / (max ((100 : ℕ) : ℚ) ((100 : ℕ) : ℚ))))),
          make_even (roundHE (((100 : ℕ) : ℚ) *
            (((0 : ℕ) : ℚ) / (max ((100 : ℕ) : ℚ) ((100 : ℕ) : ℚ)))))) := by
      unfold computeScaleRatio_execute
      rw [if_neg (by norm_num)]
    have e1 : ((100 : ℕ) : ℚ) * (((0 : ℕ) : ℚ) / (max ((100 : ℕ) : ℚ) ((100 : ℕ) : ℚ))) =
        ((0 : ℤ) : ℚ) := by norm_num
    have m0 : make_even 0 = 0 := by decide
    rw [hx, roundHE_eq_of_eq_int e1, m0]
    norm_num
  · omega

/-- C4 (amended): for images with positive dimensions, all dimension outputs
of the three planning operations are non-negative, and the reference-side and
max-dimension modes produce even values; positivity fails at the declared
lower bound of the size inputs (see the counterexample). -/
theorem dimension_nonneg_even (w h : ℕ) (hw : 1 ≤ w) (hh : 1 ≤ h) :
    (∀ size shorter W H, scaleBySide_execute w h size shorter = some (W, H) →
      0 ≤ W ∧ 0 ≤ H ∧ 2 ∣ W ∧ 2 ∣ H) ∧
    (∀ target rr W H, computeScaleRatio_execute w h target = some (rr, W, H) →
      0 ≤ W ∧ 0 ≤ H ∧ 2 ∣ W ∧ 2 ∣ H) ∧
    (∀ m W H, sdScaler_execute w h m = some (W, H) → 0 ≤ W ∧ 0 ≤ H) := by
  refine ⟨?_, ?_, ?_⟩
  · intro size shorter W H hWH
    unfold scaleBySide_execute at hWH
    by_cases hc : size = 0 ∨ (if shorter then min w h else max w h) = 0
    · rw [if_pos hc] at hWH
      exact absurd hWH (by simp)
    · rw [if_neg hc] at hWH
      simp only [Option.some.injEq, Prod.mk.injEq] at hWH
      obtain ⟨hW, hH⟩ := hWH
      have hq1 : (0 : ℚ) ≤ (w : ℚ) /
          (((if shorter then min w h else max w h : ℕ) : ℚ) / (size : ℚ)) := by
        positivity
      have hq2 : (0 : ℚ) ≤ (h : ℚ) /
          (((if shorter then min w h else max w h : ℕ) : ℚ) / (size : ℚ)) := by
        positivity
      rw [← hW, ← hH]
      exact ⟨make_even_nonneg (roundHE_nonneg hq1), make_even_nonneg (roundHE_nonneg hq2),
        make_even_even _, make_even_even _⟩
  · intro target rr W H hWH
    unfold computeScaleRatio_execute at hWH
    rw [if_neg (by omega)] at hWH
    simp only [Option.some.injEq, Prod.mk.injEq] at hWH
    obtain ⟨hrr, hW, hH⟩ := hWH
    have hq1 : (0 : ℚ) ≤ (w : ℚ) * ((target : ℚ) / (max (w : ℚ) (h : ℚ))) := by positivity
    have hq2 : (0 : ℚ) ≤ (h : ℚ) * ((target : ℚ) / (max (w : ℚ) (h : ℚ))) := by positivity
    rw [← hW, ← hH]
    exact ⟨make_even_nonneg (roundHE_nonneg hq1), make_even_nonneg (roundHE_nonneg hq2),
      make_even_even _, make_even_even _⟩
  · intro m W H hWH
    unfold sdScaler_execute at hWH
    rw [if_neg (by positivity)] at hWH
    simp only [Option.some.injEq, Prod.mk.injEq] at hWH
    obtain ⟨hW, hH⟩ := hWH
    have hq1 : (0 : ℝ) ≤ (w : ℝ) * Real.sqrt
        ((((sd_dimensions m).1 * (sd_dimensions m).2 : ℕ) : ℝ) / ((w * h : ℕ) : ℝ)) := by
      positivity
    have hq2 : (0 : ℝ) ≤ (h : ℝ) * Real.sqrt
        ((((sd_dimensions m).1 * (sd_dimensions m).2 : ℕ) : ℝ) / ((w * h : ℕ) : ℝ)) := by
      positivity
    rw [← hW, ← hH]
    exact ⟨roundHE_nonneg hq1, roundHE_nonneg hq2⟩

/-- Evaluation helper: `ImageScaleBySpecifiedSide` on a 100×100 image with
`size = 50`, `shorter = true` yields 50×50. -/
theorem scaleBySide_eval_small : scaleBySide_execute 100 100 50 true = some (50, 50) := by
  have hx : scaleBySide_execute 100 100 50 true =
      some (make_even (roundHE (((100 : ℕ) : ℚ) /
              (((if true then min 100 100 else max 100 100 : ℕ) : ℚ) / ((50 : ℕ) : ℚ)))),
            make_even (roundHE (((100 : ℕ) : ℚ) /
              (((if true then min 100 100 else max 100 100 : ℕ) : ℚ) / ((50 : ℕ) : ℚ))))) := by
    unfold scaleBySide_execute
    rw [if_neg (by norm_num)]
  have e1 : ((100 : ℕ) : ℚ) / (((if true then min 100 100 else max 100 100 : ℕ) : ℚ) /
      ((50 : ℕ) : ℚ)) = ((50 : ℤ) : ℚ) := by norm_num
  have m1 : make_even 50 = 50 := by decide
  rw [hx, roundHE_eq_of_eq_int e1, m1]

/-- Witness for C4 (amended) at a concrete input. -/
theorem dimension_nonneg_even_witness :
    (0 : ℤ) ≤ 50 ∧ (0 : ℤ) ≤ 50 ∧ (2 : ℤ) ∣ 50 ∧ (2 : ℤ) ∣ 50 :=
  (dimension_nonneg_even 100 100 (by decide) (by decide)).1 50 true 50 50 scaleBySide_eval_small

/-- Counterexample for C5 as stated: the fallback for an unknown preset key is
`(1024, 1024)` (the `sdxl` pair), not the largest preset's pair — `sdxl+` has
the strictly larger budget `(1024, 1280)`. -/
theorem fallback_not_largest_counterexample :
    sd_dimensions "foo" = (1024, 1024) ∧
    sd_dimensions "sdxl+" = (1024, 1280) ∧
    sd_dimensions "foo" ≠ sd_dimensions "sdxl+" ∧
    1024 * 1024 < 1024 * 1280 := by
  refine ⟨by decide, by decide, by decide, by norm_num⟩

/-- C5 (amended): an unknown model-preset key does not fail;
`ImageScalerForSDModels.execute` falls back to the `(1024, 1024)` pair — the
`sdxl` preset, which is not the largest of the four presets. -/
theorem fallback_sdxl_spec (m : String)
    (hm : m ∉ ["sd15", "sd15+", "sdxl", "sdxl+"]) :
    sd_dimensions m = (1024, 1024) ∧
    sd_dimensions m = sd_dimensions "sdxl" ∧
    ∀ w h : ℕ, sdScaler_execute w h m = sdScaler_execute w h "sdxl" := by
  simp only [List.mem_cons, List.not_mem_nil, or_false, not_or] at hm
  obtain ⟨h1, h2, h3, h4⟩ := hm
  have hd : sd_dimensions m = (1024, 1024) := by
    unfold sd_dimensions
    rw [if_neg h1, if_neg h2, if_neg h3, if_neg h4]
  have hd' : sd_dimensions m = sd_dimensions "sdxl" := by
    rw [hd]
    decide
  refine ⟨hd, hd', ?_⟩
  intro w h
  unfold sdScaler_execute
  rw [hd']

/-- Witness for C5 at a concrete unknown key. -/
theorem fallback_sdxl_spec_witness : sd_dimensions "foo" = (1024, 1024) :=
  (fallback_sdxl_spec "foo" (by decide)).1

/-- C3: for each entry of the four-entry preset table,
`ImageScalerForSDModels.execute` scales by
`sqrt(target_w * target_h / (w * h))` and rounds each dimension with no parity
adjustment; the 800×600 `sdxl` scenario evaluates to 1182×887 (the odd height
887 shows that no even-rounding is applied; the spec's "≈886" rounds to 887). -/
theorem sdScaler_spec :
    (∀ p ∈ specTable, ∀ w h : ℕ, 0 < w → 0 < h →
      sdScaler_execute w h p.1 =
        some (roundHE ((w : ℝ) * Real.sqrt (((p.2.1 * p.2.2 : ℕ) : ℝ) / ((w * h : ℕ) : ℝ))),
              roundHE ((h : ℝ) * Real.sqrt (((p.2.1 * p.2.2 : ℕ) : ℝ) / ((w * h : ℕ) : ℝ))))) ∧
    sdScaler_execute 800 600 "sdxl" = some (1182, 887) := by
  constructor
  · intro p hp w h hw hh
    have hwh : ¬ (w * h = 0) := by
      intro hc
      rcases Nat.mul_eq_zero.mp hc with hc | hc <;> omega
    simp only [specTable, List.mem_cons, List.not_mem_nil, or_false] at hp
    rcases hp with rfl | rfl | rfl | rfl <;>
      · unfold sdScaler_execute
        rw [if_neg hwh]
        rfl
  · have hwh : ¬ ((800 : ℕ) * 600 = 0) := by norm_num
    have hx : sdScaler_execute 800 600 "sdxl" =
        some (roundHE (((800 : ℕ) : ℝ) * Real.sqrt
                ((((sd_dimensions "sdxl").1 * (sd_dimensions "sdxl").2 : ℕ) : ℝ) /
                  (((800 : ℕ) * 600 : ℕ) : ℝ))),
              roundHE (((600 : ℕ) : ℝ) * Real.sqrt
                ((((sd_dimensions "sdxl").1 * (sd_dimensions "sdxl").2 : ℕ) : ℝ) /
                  (((800 : ℕ) * 600 : ℕ) : ℝ)))) := by
      unfold sdScaler_execute
      rw [if_neg hwh]
    rw [hx]
    have harg : ((((sd_dimensions "sdxl").1 * (sd_dimensions "sdxl").2 : ℕ) : ℝ) /
        (((800 : ℕ) * 600 : ℕ) : ℝ)) = (1048576 : ℝ) / 480000 := by
      have hd : sd_dimensions "sdxl" = (1024, 1024) := by decide
      rw [hd]
      norm_num
    rw [harg]
    have hlb : (1.478 : ℝ) < Real.sqrt ((1048576 : ℝ) / 480000) := by
      rw [Real.lt_sqrt (by norm_num)]
      norm_num
    have hub : Real.sqrt ((1048576 : ℝ) / 480000) < 1.478125 := by
      rw [Real.sqrt_lt' (by norm_num)]
      norm_num
    have h800 : roundHE (((800 : ℕ) : ℝ) * Real.sqrt ((1048576 : ℝ) / 480000)) = 1182 := by
      apply roundHE_eq_of_between_lo (n := 1182) <;> push_cast <;> nlinarith
    have h600 : roundHE (((600 : ℕ) : ℝ) * Real.sqrt ((1048576 : ℝ) / 480000)) = 887 := by
      have : roundHE (((600 : ℕ) : ℝ) * Real.sqrt ((1048576 : ℝ) / 480000)) = 886 + 1 := by
        apply roundHE_eq_of_between_hi (n := 886) <;> push_cast <;> nlinarith
      omega
    rw [h800, h600]

/-- Witness for C3 at a concrete table entry and image size. -/
theorem sdScaler_spec_witness :
    sdScaler_execute 640 480 "sd15" =
      some (roundHE ((640 : ℕ) * Real.sqrt (((512 * 512 : ℕ) : ℝ) / ((640 * 480 : ℕ) : ℝ))),
            roundHE ((480 : ℕ) * Real.sqrt (((512 * 512 : ℕ) : ℝ) / ((640 * 480 : ℕ) : ℝ)))) :=
  sdScaler_spec.1 ("sd15", (512, 512)) (by decide) 640 480 (by decide) (by decide)

/-- C6: with `expand`, the canvas is `int(h|sin θ| + w|cos θ|)` by
`int(h|cos θ| + w|sin θ|)` and the translated matrix maps the original center
to the new canvas center; without `expand` the canvas keeps the input size;
the warp always receives the cubic interpolation flag.  At 90° a 100×50 image
gets a 50×100 canvas. -/
theorem imageRotate_spec :
    (∀ (w h : ℕ) (angle : ℝ),
      (imageRotate_plan w h angle true).2.1 =
        (Int.floor ((h : ℝ) * |Real.sin (angle * Real.pi / 180)| +
          (w : ℝ) * |Real.cos (angle * Real.pi / 180)|)).toNat ∧
      (imageRotate_plan w h angle true).2.2 =
        (Int.floor ((h : ℝ) * |Real.cos (angle * Real.pi / 180)| +
          (w : ℝ) * |Real.sin (angle * Real.pi / 180)|)).toNat ∧
      affineApply (imageRotate_plan w h angle true).1 ((w : ℝ) / 2) ((h : ℝ) / 2) =
        (((imageRotate_plan w h angle true).2.1 : ℝ) / 2,
         ((imageRotate_plan w h angle true).2.2 : ℝ) / 2) ∧
      imageRotate_plan w h angle false =
        (getRotationMatrix2D ((w : ℝ) / 2) ((h : ℝ) / 2) angle, w, h) ∧
      (∀ warp img rest, imageRotate_run warp (img :: rest) angle true =
        [warp img (imageRotate_plan (imgWidth img) (imgHeight img) angle true).1
          (imageRotate_plan (imgWidth img) (imgHeight img) angle true).2 INTER_CUBIC])) ∧
    (imageRotate_plan 100 50 90 true).2 = (50, 100) := by
  constructor
  · intro w h angle
    refine ⟨rfl, rfl, ?_, rfl, fun warp img rest => rfl⟩
    unfold imageRotate_plan getRotationMatrix2D affineApply
    simp only [if_true]
    rw [Prod.mk.injEq]
    constructor <;> ring
  · have hang : (90 : ℝ) * Real.pi / 180 = Real.pi / 2 := by ring
    have hcos : Real.cos ((90 : ℝ) * Real.pi / 180) = 0 := by
      rw [hang, Real.cos_pi_div_two]
    have hsin : Real.sin ((90 : ℝ) * Real.pi / 180) = 1 := by
      rw [hang, Real.sin_pi_div_two]
    have hplan : (imageRotate_plan 100 50 90 true).2 =
        ((Int.floor (((50 : ℕ) : ℝ) * |Real.sin ((90 : ℝ) * Real.pi / 180)| +
          ((100 : ℕ) : ℝ) * |Real.cos ((90 : ℝ) * Real.pi / 180)|)).toNat,
         (Int.floor (((50 : ℕ) : ℝ) * |Real.cos ((90 : ℝ) * Real.pi / 180)| +
          ((100 : ℕ) : ℝ) * |Real.sin ((90 : ℝ) * Real.pi / 180)|)).toNat) := rfl
    rw [hplan, hcos, hsin]
    have e1 : ((50 : ℕ) : ℝ) * |(1 : ℝ)| + ((100 : ℕ) : ℝ) * |(0 : ℝ)| = ((50 : ℤ) : ℝ) := by
      norm_num
    have e2 : ((50 : ℕ) : ℝ) * |(0 : ℝ)| + ((100 : ℕ) : ℝ) * |(1 : ℝ)| = ((100 : ℤ) : ℝ) := by
      norm_num
    rw [e1, e2, Int.floor_intCast, Int.floor_intCast]
    rfl

/-- C10: the three single-image nodes act only on the first image of the
batch and always return a batch of size exactly 1, discarding the rest. -/
theorem batch_first_only_spec (img : Img) (rest : List Img) (t bw r g b : ℕ) (q : ℚ)
    (angle : ℝ) (expand : Bool) (warp : Img → AffineMat → ℕ × ℕ → ℕ → Img) :
    imageRotate_run warp (img :: rest) angle expand =
      imageRotate_run warp [img] angle expand ∧
    (imageRotate_run warp (img :: rest) angle expand).length = 1 ∧
    trimImageBorders_run (img :: rest) t = trimImageBorders_run [img] t ∧
    (trimImageBorders_run (img :: rest) t).length = 1 ∧
    addImageBorder_run (img :: rest) bw q r g b = addImageBorder_run [img] bw q r g b ∧
    (addImageBorder_run (img :: rest) bw q r g b).1.length = 1 ∧
    (addImageBorder_run (img :: rest) bw q r g b).2.length = 1 :=
  ⟨rfl, rfl, rfl, rfl, rfl, rfl, rfl⟩
